import Mathlib

/-!
Verification of the resilient ingestion core of the Esports-Trajectory
repository (src/run_etl.py, src/data/*.py) against its natural-language
specification.

The Python source is shallowly embedded: pure fragments become Lean
functions, the SQLite tables become lists of row structures with the
engine's comparison semantics (`NULL`-distinct `UNIQUE` matching,
binary-collation `MIN`/`MAX`), the filesystem cache becomes an explicit
path-to-content association list, wall-clock time in the rate limiter
becomes an explicit rational-valued input, and the per-item processing
loop of the players stage becomes a trace-producing step function whose
per-item outcome (success, rate-limited, other error) is an explicit
input.  External libraries (requests, BeautifulSoup, hashlib) are cut at
their interface: an HTTP response is a status/body/content-type record,
the HTML parser's output is the list of extracted anchor hrefs, and the
SHA-1 fingerprint is an arbitrary deterministic function.
-/

namespace EsportsTraj

/-! ## Lexicographic string order (Python `sorted`, SQLite BINARY `MIN`/`MAX`)

Python compares strings by code point, and SQLite's default BINARY
collation compares UTF-8 bytes; on the ASCII titles and ISO dates this
repository handles the two coincide with code-point lexicographic order,
embedded here as an executable comparison on the underlying character
lists. -/

/-- Lexicographic less-or-equal on character lists, by code point. -/
def lexLe : List Char → List Char → Bool
  | [], _ => true
  | _ :: _, [] => false
  | a :: as, b :: bs =>
    a.toNat < b.toNat || (a.toNat == b.toNat && lexLe as bs)

/-- Code-point lexicographic order on strings (Python/SQLite string order). -/
def strLe (a b : String) : Bool := lexLe a.data b.data

theorem lexLe_total : ∀ as bs : List Char, lexLe as bs = true ∨ lexLe bs as = true := by
  intro as
  induction as with
  | nil => intro bs; left; rfl
  | cons a as ih =>
    intro bs
    cases bs with
    | nil => right; rfl
    | cons b bs =>
      simp only [lexLe, Bool.or_eq_true, Bool.and_eq_true, beq_iff_eq, decide_eq_true_eq]
      rcases Nat.lt_trichotomy a.toNat b.toNat with h | h | h
      · left; left; exact h
      · rcases ih bs with h' | h'
        · left; right; exact ⟨h, h'⟩
        · right; right; exact ⟨h.symm, h'⟩
      · right; left; exact h

theorem charToNat_inj {a b : Char} (h : a.toNat = b.toNat) : a = b :=
  Char.ext (UInt32.ext h)

theorem lexLe_antisymm : ∀ as bs : List Char,
    lexLe as bs = true → lexLe bs as = true → as = bs := by
  intro as
  induction as with
  | nil =>
    intro bs _ hba
    cases bs with
    | nil => rfl
    | cons b bs => simp [lexLe] at hba
  | cons a as ih =>
    intro bs hab hba
    cases bs with
    | nil => simp [lexLe] at hab
    | cons b bs =>
      simp only [lexLe, Bool.or_eq_true, Bool.and_eq_true, beq_iff_eq,
        decide_eq_true_eq] at hab hba
      rcases hab with h | ⟨he, hab'⟩
      · rcases hba with h' | ⟨he', _⟩
        · exact absurd h' (Nat.lt_asymm h)
        · exact absurd he'.symm (Nat.ne_of_lt h)
      · rcases hba with h' | ⟨_, hba'⟩
        · exact absurd he.symm (Nat.ne_of_lt h')
        · rw [charToNat_inj he, ih bs hab' hba']

theorem lexLe_trans : ∀ as bs cs : List Char,
    lexLe as bs = true → lexLe bs cs = true → lexLe as cs = true := by
  intro as
  induction as with
  | nil => intro bs cs _ _; rfl
  | cons a as ih =>
    intro bs cs hab hbc
    cases bs with
    | nil => simp [lexLe] at hab
    | cons b bs =>
      cases cs with
      | nil => simp [lexLe] at hbc
      | cons c cs =>
        simp only [lexLe, Bool.or_eq_true, Bool.and_eq_true, beq_iff_eq,
          decide_eq_true_eq] at hab hbc ⊢
        rcases hab with h | ⟨he, hab'⟩
        · rcases hbc with h' | ⟨he', _⟩
          · exact Or.inl (Nat.lt_trans h h')
          · exact Or.inl (he' ▸ h)
        · rcases hbc with h' | ⟨he', hbc'⟩
          · exact Or.inl (he ▸ h')
          · exact Or.inr ⟨he.trans he', ih bs cs hab' hbc'⟩

/-- The propositional form of `strLe`, used as a sort relation. -/
def strLeR (a b : String) : Prop := strLe a b = true

instance : DecidableRel strLeR := fun a b => inferInstanceAs (Decidable (strLe a b = true))

instance : IsTotal String strLeR :=
  ⟨fun a b => lexLe_total a.data b.data⟩

instance : IsTrans String strLeR :=
  ⟨fun a b c => lexLe_trans a.data b.data c.data⟩

instance : IsAntisymm String strLeR := by
  constructor
  intro a b hab hba
  have h := lexLe_antisymm a.data b.data hab hba
  cases a; cases b; exact congrArg String.mk h

theorem strLe_refl (a : String) : strLe a a = true := by
  have := lexLe_total a.data a.data
  unfold strLe
  tauto

/-! ## ContentCache (src/data/cache.py)

The filesystem is an explicit association list from absolute paths to
file contents, newest write first; `hashlib.sha1(...).hexdigest()` is an
arbitrary deterministic function `sha1hex`, since no property proved
here depends on anything but its determinism. -/

/-- Filesystem model: list of (path, contents), most recent write first. -/
def FileSys : Type := List (String × String)

/-- Read a file: the most recent write to that path, if any. -/
def fsRead (fs : FileSys) (path : String) : Option String :=
  (fs.find? (fun e => e.1 == path)).map (·.2)

/-- Write a file, shadowing any previous content at that path. -/
def fsWrite (fs : FileSys) (path : String) (content : String) : FileSys :=
  (path, content) :: fs

/-- Cache file path: `os.path.join(cache_dir, _key(key) + ".html")` where
`_key` is the SHA-1 hex fingerprint of the logical key. -/
def cachePath (sha1hex : String → String) (cache_dir key : String) : String :=
  cache_dir ++ "/" ++ sha1hex key ++ ".html"

/-- Embeds `cache_get` of src/data/cache.py: return the file's contents if
the fingerprint-named file exists, else `None`. -/
def cache_get (sha1hex : String → String) (fs : FileSys) (cache_dir key : String) :
    Option String :=
  fsRead fs (cachePath sha1hex cache_dir key)

/-- Embeds `cache_set` of src/data/cache.py: write the payload to the
fingerprint-named file. -/
def cache_set (sha1hex : String → String) (fs : FileSys) (cache_dir key value : String) :
    FileSys :=
  fsWrite fs (cachePath sha1hex cache_dir key) value

/-! ## Storage: team_stints insert (src/data/db.py, src/data/stages/players.py)

A `team_stints` row carries the five `UNIQUE(player_title, team, joined,
left, note)` columns plus `source_url` and `created_utc`.  Nullable TEXT
columns are `Option String`.  `INSERT OR IGNORE` inserts unless an
existing row collides on the unique tuple under SQLite's comparison
semantics, in which `NULL` is distinct from every value including
`NULL`. -/

structure StintRow where
  player_title : String
  team : Option String
  joined : Option String
  left : Option String
  note : Option String
  source_url : Option String
  created_utc : String
deriving DecidableEq, Repr

/-- SQL equality on nullable values: `NULL` compares unequal to everything,
including `NULL` (this is how SQLite's UNIQUE index matches rows). -/
def sqlEq (a b : Option String) : Bool :=
  match a, b with
  | some x, some y => x == y
  | _, _ => false

/-- Two rows collide on `UNIQUE(player_title, team, joined, left, note)`. -/
def stintConflict (r s : StintRow) : Bool :=
  r.player_title == s.player_title &&
  sqlEq r.team s.team &&
  sqlEq r.joined s.joined &&
  sqlEq r.left s.left &&
  sqlEq r.note s.note

/-- Embeds the `INSERT OR IGNORE INTO team_stints` statement of the players
stage: the row is appended unless some stored row collides on the unique
tuple. -/
def insertOrIgnoreStint (tbl : List StintRow) (r : StintRow) : List StintRow :=
  if tbl.any (fun s => stintConflict r s) then tbl else tbl ++ [r]

/-! ## Work-list truncation and config default (src/data/stages/players.py, src/data/config.py) -/

/-- Embeds `if max_players > 0: titles = titles[:max_players]` of the
players stage (`max_players` arrives as a Python `int`, possibly from
config, hence `Int`). -/
def applyMaxPlayers (max_players : Int) (titles : List String) : List String :=
  if 0 < max_players then titles.take max_players.toNat else titles

/-- Embeds `cfg.setdefault("max_players", 0)` of `load_config`: the
configured value if present, else `0`. -/
def configMaxPlayers (v : Option Int) : Int := v.getD 0

/-! ## Fetch classification (src/data/mw.py)

An attempt's observable outcome from the `requests` library is either a
transport exception or an HTTP response with a status, a body, a
content-type-is-JSON flag and a payload-contains-"error"-key flag.  A call
is driven by the list of successive attempt outcomes; exhausting the list
models exhausting `max_retries` attempts.  Backoff sleeps do not affect
the result and are not modelled; "no further attempt is consumed" is
expressed as independence of the result from the remaining list. -/

inductive HttpAttempt where
  | http (status : Nat) (body : String) (isJson : Bool) (hasApiError : Bool)
  | netError
deriving DecidableEq, Repr

/-- Character list `needle` occurs at the front of `hay`. -/
def leadsWith : List Char → List Char → Bool
  | [], _ => true
  | _ :: _, [] => false
  | a :: as, b :: bs => a == b && leadsWith as bs

/-- Character list `needle` occurs contiguously anywhere in `hay`. -/
def containsSeq (needle : List Char) : List Char → Bool
  | [] => needle.isEmpty
  | hay@(_ :: rest) => leadsWith needle hay || containsSeq needle rest

/-- The body contains the marker `"Rate Limited - Liquipedia"` (Python's
substring `in` operator). -/
def hasRateLimitMarker (body : String) : Bool :=
  containsSeq "Rate Limited - Liquipedia".data body.data

/-- An attempt is a hard rate limit: status 429, or the marker in the body. -/
def isHardRateLimit : HttpAttempt → Bool
  | .http status body _ _ => status == 429 || hasRateLimitMarker body
  | .netError => false

inductive FetchResult where
  | ok (body : String)
  | rateLimited
  | fatal
deriving DecidableEq, Repr

/-- Embeds `MediaWikiClient._request` (the structured JSON API call): on a
hard rate limit raise `RateLimited` at once; on 5xx, on a `raise_for_status`
error, on a non-JSON content type, on a MediaWiki error payload, or on a
transport exception retry with the next attempt; return the payload
otherwise; exhausting attempts is the fatal `RuntimeError`. -/
def requestCall : List HttpAttempt → FetchResult
  | [] => .fatal
  | a :: rest =>
    match a with
    | .netError => requestCall rest
    | .http status body isJson hasApiError =>
      if status == 429 || hasRateLimitMarker body then .rateLimited
      else if 500 ≤ status ∧ status < 600 then requestCall rest
      else if 400 ≤ status then requestCall rest
      else if !isJson then requestCall rest
      else if hasApiError then requestCall rest
      else .ok body

/-- Embeds `MediaWikiClient.fetch_full_html` (the raw-document fetch): a
429 or marker body is cooled down and retried in the loop, any
`raise_for_status` error or transport exception is retried, a successful
response returns the body; exhausting attempts is the fatal
`RuntimeError`.  Note this path never produces `.rateLimited`. -/
def fetchFullHtmlCall : List HttpAttempt → FetchResult
  | [] => .fatal
  | a :: rest =>
    match a with
    | .netError => fetchFullHtmlCall rest
    | .http status body _ _ =>
      if status == 429 || hasRateLimitMarker body then fetchFullHtmlCall rest
      else if 400 ≤ status then fetchFullHtmlCall rest
      else .ok body

/-! ## Players stage processing loop (src/data/stages/players.py `run`)

The loop `for i in range(start_index, len(titles))` is embedded as a
trace-producing recursion on the remaining item count.  The outcome of
obtaining and interpreting item `i`'s content (the `try` block) is an
explicit input `outcome : Nat → ItemOutcome`; the body's observable
storage effects are emitted as events: `writes i` for the player and
team-stint `INSERT` statements of item `i`, `commit` for `conn.commit()`,
and `setCkpt n` for `set_checkpoint(conn, done_key, str(n))` (which is
durable: `set_checkpoint` commits its own transaction). -/

inductive ItemOutcome where
  | success
  | rateLimited
  | otherError
deriving DecidableEq, Repr

inductive StageEvent where
  | writes (i : Nat)
  | commit
  | setCkpt (n : Nat)
deriving DecidableEq, Repr

/-- Embeds the players-stage loop body from item index `i` with `fuel`
items left (`fuel = len(titles) - i`):
on `RateLimited` set the checkpoint to `i` and return;
on any other exception set the checkpoint to `i + 1` and continue;
on success execute the inserts, commit, set the checkpoint to `i + 1`,
and continue. -/
def processTrace (outcome : Nat → ItemOutcome) (i : Nat) : Nat → List StageEvent
  | 0 => []
  | fuel + 1 =>
    match outcome i with
    | .rateLimited => [.setCkpt i]
    | .otherError => .setCkpt (i + 1) :: processTrace outcome (i + 1) fuel
    | .success =>
        .writes i :: .commit :: .setCkpt (i + 1) :: processTrace outcome (i + 1) fuel

/-- Embeds the whole stage loop over the discovered, truncated title list,
resuming at the checkpointed `start_index`. -/
def playersStageTrace (outcome : Nat → ItemOutcome) (titles : List String)
    (start_index : Nat) : List StageEvent :=
  processTrace outcome start_index (titles.length - start_index)

/-- The checkpoint value visible after a (possibly truncated) event trace:
the argument of the last `setCkpt` event, if any. -/
def lastCkpt (p : List StageEvent) : Option Nat :=
  p.foldl (fun acc e => match e with | .setCkpt n => some n | _ => acc) none

/-- Item `i`'s inserts are durably committed in the trace `p`: the
`writes i` event is followed (not necessarily immediately) by a `commit`. -/
def committedIn (p : List StageEvent) (i : Nat) : Prop :=
  ∃ q r, p = q ++ r ∧ StageEvent.writes i ∈ q ∧ StageEvent.commit ∈ r

/-! ## Career aggregation (src/data/stages/careers.py `run`)

The stage deletes every `player_careers` row and repopulates the table
from one grouped `SELECT` over `team_stints`: rows with `joined IS NULL`
are excluded by the `WHERE`, grouping is by `player_title`, and per group
the SQL computes `MIN(joined)`, `MAX(COALESCE(left, today))`,
`ROUND(julianday(MAX(...)) - julianday(MIN(joined)), 1)` and `COUNT(*)`.
Dates are ISO `YYYY-MM-DD` strings; string `MIN`/`MAX` follow the BINARY
collation embedded as `strLe`, and `julianday` differences of two valid
dates are exact whole days (so `ROUND(_, 1)` is the identity and the
span is an integer); an unparsable date makes `julianday`, and hence the
span, `NULL`. -/

/-- Running minimum of two TEXT values under the BINARY collation. -/
def minAcc (a b : String) : String := if strLe a b then a else b

/-- Running maximum of two TEXT values under the BINARY collation. -/
def maxAcc (a b : String) : String := if strLe a b then b else a

/-- SQL `MIN` over the non-null values of a group (TEXT, BINARY collation). -/
def sqlMin : List String → Option String
  | [] => none
  | x :: xs => some (xs.foldl minAcc x)

/-- SQL `MAX` over the non-null values of a group (TEXT, BINARY collation). -/
def sqlMax : List String → Option String
  | [] => none
  | x :: xs => some (xs.foldl maxAcc x)

/-- Split a character list on a separator character. -/
def splitOnChar (sep : Char) : List Char → List (List Char)
  | [] => [[]]
  | c :: cs =>
    let r := splitOnChar sep cs
    if c == sep then [] :: r
    else
      match r with
      | [] => [[c]]
      | h :: t => (c :: h) :: t

/-- Numeric value of a non-empty all-digit character list. -/
def digitsToNat : List Char → Option Nat
  | [] => none
  | cs =>
    cs.foldl (fun acc c =>
      match acc with
      | none => none
      | some n => if 48 ≤ c.toNat ∧ c.toNat ≤ 57 then some (n * 10 + (c.toNat - 48)) else none)
      (some 0)

/-- Parse an ISO `YYYY-MM-DD` date string into (year, month, day). -/
def parseISODate (s : String) : Option (Nat × Nat × Nat) :=
  match splitOnChar '-' s.data with
  | [ys, ms, ds] =>
    match digitsToNat ys, digitsToNat ms, digitsToNat ds with
    | some y, some m, some d => some (y, m, d)
    | _, _, _ => none
  | _ => none

/-- Day count of a proleptic-Gregorian civil date measured from
0000-03-01 (the standard days-from-civil computation, valid for the
CE dates this repository stores). -/
def daysFromCivil (y m d : Nat) : Nat :=
  let y' := if m ≤ 2 then y - 1 else y
  let era := y' / 400
  let yoe := y' - era * 400
  let mp := (m + 9) % 12
  let doy := (153 * mp + 2) / 5 + (d - 1)
  let doe := yoe * 365 + yoe / 4 - yoe / 100 + doy
  era * 146097 + doe

/-- SQLite `julianday` on a date-only string, shifted to a whole-day
scale: defined exactly when the string parses as an ISO date. -/
def dayNumber (s : String) : Option Nat :=
  (parseISODate s).map (fun x => daysFromCivil x.1 x.2.1 x.2.2)

/-- Embeds `ROUND(julianday(b) - julianday(a), 1)` for date-only strings:
the exact whole-day span, `NULL` if either date is unparsable. -/
def careerDaysOf (a b : String) : Option Int :=
  match dayNumber a, dayNumber b with
  | some x, some y => some ((y : Int) - (x : Int))
  | _, _ => none

structure CareerRow where
  player_title : String
  career_start : Option String
  career_end : Option String
  career_days : Option Int
  stints_count : Nat
deriving DecidableEq, Repr

/-- The group of `team_stints` rows the careers `SELECT` aggregates for
player `p`: rows of `p` whose `joined` is not `NULL`. -/
def careerGroup (stints : List StintRow) (p : String) : List StintRow :=
  stints.filter (fun r => r.player_title == p && r.joined.isSome)

/-- The `joined` values the group's `MIN(joined)` aggregates (all non-null
by the `WHERE`). -/
def careerJoineds (stints : List StintRow) (p : String) : List String :=
  (careerGroup stints p).filterMap (fun r => r.joined)

/-- The `COALESCE(left, today)` values the group's `MAX` aggregates. -/
def careerEnds (stints : List StintRow) (today p : String) : List String :=
  (careerGroup stints p).map (fun r => r.left.getD today)

/-- The `career_days` column from the two aggregated bounds (`NULL` when a
bound is absent, as SQL propagates `NULL`). -/
def careerDaysField (a b : Option String) : Option Int :=
  match a, b with
  | some x, some y => careerDaysOf x y
  | _, _ => none

/-- The aggregated `player_careers` row for player `p`, or `none` when the
group is empty (such players get no career row). -/
def careerRowFor (stints : List StintRow) (today : String) (p : String) :
    Option CareerRow :=
  if careerGroup stints p = [] then none
  else
    some
      { player_title := p
        career_start := sqlMin (careerJoineds stints p)
        career_end := sqlMax (careerEnds stints today p)
        career_days :=
          careerDaysField (sqlMin (careerJoineds stints p))
            (sqlMax (careerEnds stints today p))
        stints_count := (careerGroup stints p).length }

/-- The distinct players the grouped `SELECT` produces a row for, in first
appearance order. -/
def careerPlayers (stints : List StintRow) : List String :=
  ((stints.filter (fun r => r.joined.isSome)).map (fun r => r.player_title)).dedup

/-- Embeds the careers stage `run`: `DELETE FROM player_careers` followed
by the grouped `INSERT ... SELECT`; the previous contents `old` are
discarded entirely. -/
def careersRun (old : List CareerRow) (stints : List StintRow) (today : String) :
    List CareerRow :=
  (careerPlayers stints).filterMap (careerRowFor stints today)

/-! ## Player discovery (src/data/discover_players.py)

BeautifulSoup is cut at its interface: the input is the list of `href`
attribute values of the document's anchor tags, in document order.  The
regex `^/leagueoflegends/([^#?]+)$` matches when the href starts with
`/leagueoflegends/` and the non-empty remainder contains neither `#` nor
`?`; the captured remainder has `_` replaced by spaces, then namespace
and non-player titles are dropped, the survivors are collected into a
set and returned sorted. -/

/-- The regex match and capture: `^/leagueoflegends/([^#?]+)$` followed by
`.replace("_", " ")`. -/
def hrefTitle (href : String) : Option String :=
  if href.startsWith "/leagueoflegends/" then
    let rest := href.drop "/leagueoflegends/".length
    if rest.length > 0 && rest.data.all (fun c => !(c == '#') && !(c == '?')) then
      some (rest.replace "_" " ")
    else none
  else none

/-- The namespace/non-player drop tests applied to a candidate title. -/
def titleRejected (title : String) : Bool :=
  title.contains ':' ||
  title.contains '/' ||
  (title.toLower.startsWith "portal" || title.toLower.startsWith "help" ||
    title.toLower.startsWith "special" || title.toLower.startsWith "category")

/-- A single anchor href's contribution to the title set: the matched,
underscore-mapped capture when it survives the drop tests. -/
def candidateTitle (href : String) : Option String :=
  (hrefTitle href).bind fun title =>
    if titleRejected title then none else some title

/-- Embeds `discover_player_titles_from_html`: collect candidate titles
into a set and return them sorted (`sorted` over a Python `set`,
embedded as dedup followed by a stable sort under `strLeR`). -/
def discover_player_titles_from_html (hrefs : List String) : List String :=
  List.insertionSort strLeR ((hrefs.filterMap candidateTitle).dedup)

/-! ## Sliding-window rate limiter (src/data/mw.py `HourlyRateLimiter`)

Wall-clock time is rational-valued and passed in explicitly: a call to
`wait_for_slot` receives the value of `time.time()` on entry (`now`), the
jitter drawn by `random.uniform(0.5, 3.0)`, and the value of
`time.time()` after the sleep (`now2`, used only on the full-window
branch).  The validity predicate on these inputs states what the runtime
guarantees: the clock is monotone, the jitter is at least `0.5`, and
sleeping for `sleep_for` seconds advances the clock by at least
`sleep_for`. -/

structure HourlyRateLimiter where
  max_requests : Nat
  window_seconds : Rat
  timestamps : List Rat
deriving DecidableEq, Repr

/-- Embeds the `while self.timestamps and now - self.timestamps[0] >=
self.window_seconds: self.timestamps.popleft()` loop: drop the expired
front of the (chronologically ordered) deque. -/
def dropExpired (now window : Rat) (ts : List Rat) : List Rat :=
  ts.dropWhile (fun t => window ≤ now - t)

/-- Embeds `sleep_for = max(1.0, window - (now - timestamps[0]) + jitter)`
computed on the full-window branch (the deque is then non-empty, so
`headD` is its first element). -/
def sleepFor (window now jitter : Rat) (ts : List Rat) : Rat :=
  max 1 (window - (now - ts.headD 0) + jitter)

/-- Embeds `HourlyRateLimiter.wait_for_slot`: drop expired timestamps;
if a slot is free record `now`; otherwise sleep until the oldest falls
out of the window, drop expired timestamps again, and record the
post-sleep time `now2`. -/
def wait_for_slot (lim : HourlyRateLimiter) (now jitter now2 : Rat) :
    HourlyRateLimiter :=
  if (dropExpired now lim.window_seconds lim.timestamps).length < lim.max_requests then
    { lim with timestamps := dropExpired now lim.window_seconds lim.timestamps ++ [now] }
  else
    { lim with timestamps := (dropExpired now2 lim.window_seconds (dropExpired now lim.window_seconds lim.timestamps)) ++ [now2] }

/-- The timestamp `wait_for_slot` records (the moment the request is
admitted): `now` on the free-slot branch, `now2` after sleeping. -/
def admittedAt (lim : HourlyRateLimiter) (now jitter now2 : Rat) : Rat :=
  if (dropExpired now lim.window_seconds lim.timestamps).length < lim.max_requests
  then now else now2

/-- One `wait_for_slot` call's explicit inputs. -/
structure SlotCall where
  now : Rat
  jitter : Rat
  now2 : Rat
deriving DecidableEq, Repr

/-- Run a sequence of `wait_for_slot` calls, returning the final limiter
state and the full admission history (every recorded timestamp, in
order, including those later dropped from the deque). -/
def runLimiter (lim : HourlyRateLimiter) : List SlotCall → HourlyRateLimiter × List Rat
  | [] => (lim, [])
  | c :: cs =>
    let lim' := wait_for_slot lim c.now c.jitter c.now2
    let a := admittedAt lim c.now c.jitter c.now2
    let (limF, hist) := runLimiter lim' cs
    (limF, a :: hist)

/-- The runtime-guaranteed validity of a call sequence, relative to the
current limiter state and the previous call's admission time `tprev`:
each call observes a clock no earlier than the last admission, draws a
jitter of at least `1/2` (from `uniform(0.5, 3.0)`), and observes a
post-sleep clock at least `sleep_for` later than `now`. -/
def ValidCalls (lim : HourlyRateLimiter) (tprev : Rat) : List SlotCall → Prop
  | [] => True
  | c :: cs =>
    tprev ≤ c.now ∧ 1/2 ≤ c.jitter ∧
    c.now + sleepFor lim.window_seconds c.now c.jitter
      (dropExpired c.now lim.window_seconds lim.timestamps) ≤ c.now2 ∧
    ValidCalls (wait_for_slot lim c.now c.jitter c.now2)
      (admittedAt lim c.now c.jitter c.now2) cs

/-- Number of admitted timestamps lying in the trailing window `(t - W, t]`. -/
def windowCount (W : Rat) (hist : List Rat) (t : Rat) : Nat :=
  hist.countP (fun s => decide (t - W < s ∧ s ≤ t))

/-! ## Shared helper lemmas about stage traces -/

theorem committedIn_cons (e : StageEvent) {p : List StageEvent} {i : Nat}
    (h : committedIn p i) : committedIn (e :: p) i := by
  obtain ⟨q, r, hpq, hw, hc⟩ := h
  exact ⟨e :: q, r, by rw [hpq, List.cons_append], List.mem_cons_of_mem _ hw, hc⟩

theorem lastCkpt_foldl (p : List StageEvent) :
    ∀ a : Option Nat,
      p.foldl (fun acc e => match e with | .setCkpt n => some n | _ => acc) a =
        match lastCkpt p with
        | some v => some v
        | none => a := by
  induction p with
  | nil => intro a; rfl
  | cons e p ih =>
    intro a
    show p.foldl _ (match e with | .setCkpt n => some n | _ => a) = _
    rw [ih]
    show _ = match lastCkpt (e :: p) with | some v => some v | none => a
    have : lastCkpt (e :: p) =
        p.foldl (fun acc e => match e with | .setCkpt n => some n | _ => acc)
          (match e with | .setCkpt n => some n | _ => none) := rfl
    rw [this, ih]
    cases e with
    | setCkpt n => cases lastCkpt p <;> rfl
    | writes i => cases lastCkpt p <;> rfl
    | commit => cases lastCkpt p <;> rfl

theorem lastCkpt_cons (e : StageEvent) (p : List StageEvent) :
    lastCkpt (e :: p) =
      match lastCkpt p with
      | some v => some v
      | none => match e with | .setCkpt n => some n | _ => none := by
  show p.foldl _ _ = _
  rw [lastCkpt_foldl]

theorem writes_mem_processTrace {outcome : Nat → ItemOutcome} {j : Nat} :
    ∀ {fuel i : Nat}, StageEvent.writes j ∈ processTrace outcome i fuel → i ≤ j := by
  intro fuel
  induction fuel with
  | zero => intro i h; simp [processTrace] at h
  | succ n ih =>
    intro i h
    rw [processTrace] at h
    cases houtcome : outcome i with
    | rateLimited => rw [houtcome] at h; simp at h
    | otherError =>
      rw [houtcome] at h
      rcases List.mem_cons.mp h with h' | h'
      · cases h'
      · exact Nat.le_of_succ_le (ih h')
    | success =>
      rw [houtcome] at h
      rcases List.mem_cons.mp h with h' | h'
      · cases h'; exact Nat.le_refl j
      · rcases List.mem_cons.mp h' with h'' | h''
        · cases h''
        · rcases List.mem_cons.mp h'' with h3 | h3
          · cases h3
          · exact Nat.le_of_succ_le (ih h3)

/-! ## Claim theorems -/

/-- C8: `cache_set(dir, k, v)` followed by `cache_get(dir, k)` returns
exactly `v`; the model has no clock, TTL or invalidation, and a write to
any other cache file leaves the payload stored for `k` untouched. -/
theorem cache_set_get_roundtrip (sha1hex : String → String) (fs : FileSys)
    (dir k v : String) :
    cache_get sha1hex (cache_set sha1hex fs dir k v) dir k = some v ∧
    (∀ k' v', cachePath sha1hex dir k' ≠ cachePath sha1hex dir k →
      cache_get sha1hex (cache_set sha1hex fs dir k' v') dir k =
        cache_get sha1hex fs dir k) := by
  constructor
  · show ((((cachePath sha1hex dir k, v) :: fs).find?
      (fun e => e.1 == cachePath sha1hex dir k)).map (·.2)) = some v
    rw [List.find?_cons_of_pos _ (by simp)]
    rfl
  · intro k' v' hne
    show ((((cachePath sha1hex dir k', v') :: fs).find?
      (fun e => e.1 == cachePath sha1hex dir k)).map (·.2)) = _
    rw [List.find?_cons_of_neg _ (by simpa using hne)]
    rfl

/-- Witness for C8's hypothesis: with the identity fingerprint, distinct
keys give distinct cache paths, and a write to key `b` preserves the
payload previously stored for key `a`. -/
theorem cache_set_get_roundtrip_witness :
    cache_get (fun s => s) (cache_set (fun s => s) [] "c" "a" "v1") "c" "a" = some "v1" ∧
    cache_get (fun s => s)
        (cache_set (fun s => s) (cache_set (fun s => s) [] "c" "a" "v1") "c" "b" "v2")
        "c" "a" =
      cache_get (fun s => s) (cache_set (fun s => s) [] "c" "a" "v1") "c" "a" :=
  ⟨(cache_set_get_roundtrip (fun s => s) [] "c" "a" "v1").1,
    (cache_set_get_roundtrip (fun s => s) (cache_set (fun s => s) [] "c" "a" "v1")
      "c" "a" "v1").2 "b" "v2" (by decide)⟩

/-- C9: with a positive configured `max_players` the discovered title list
is truncated to its first `max_players` entries; with the value `0`
(which is also the `load_config` default) the list is processed in
full. -/
theorem max_players_truncation (m : Int) (titles : List String) :
    (0 < m → applyMaxPlayers m titles = titles.take m.toNat) ∧
    (m = 0 → applyMaxPlayers m titles = titles) ∧
    configMaxPlayers none = 0 := by
  refine ⟨fun h => ?_, fun h => ?_, rfl⟩
  · rw [applyMaxPlayers, if_pos h]
  · rw [applyMaxPlayers, if_neg (by omega)]

/-- Witness for C9: `max_players = 2` truncates a three-title list to its
first two titles, `max_players = 0` leaves it whole. -/
theorem max_players_truncation_witness :
    applyMaxPlayers 2 ["A", "B", "C"] = ["A", "B"] ∧
    applyMaxPlayers 0 ["A", "B", "C"] = ["A", "B", "C"] :=
  ⟨by rw [(max_players_truncation 2 ["A", "B", "C"]).1 (by decide)]; decide,
    (max_players_truncation 0 ["A", "B", "C"]).2.1 rfl⟩

/-- C4 (code bug): under SQLite's `UNIQUE` semantics `NULL` is distinct
from `NULL`, so re-inserting a stint tuple whose `left` and `note` are
`NULL` (an ongoing stint, the common case) is NOT absorbed: two rows are
stored.  Only a tuple with all five unique-key components non-null is
absorbed to one row, as the spec demands for every tuple. -/
theorem team_stints_null_duplicate_not_absorbed :
    (insertOrIgnoreStint (insertOrIgnoreStint []
        ⟨"Faker", some "T1", some "2014-12-02", none, none, some "u", "t"⟩)
        ⟨"Faker", some "T1", some "2014-12-02", none, none, some "u", "t"⟩).length = 2 ∧
    (insertOrIgnoreStint (insertOrIgnoreStint []
        ⟨"Faker", some "SKT T1 K", some "2013-02-06", some "2014-12-02", some "n",
          some "u", "t"⟩)
        ⟨"Faker", some "SKT T1 K", some "2013-02-06", some "2014-12-02", some "n",
          some "u", "t"⟩).length = 1 := by
  decide

/-- C1 (counterexample): a raw-document fetch whose first attempt is a
hard rate limit (HTTP 429) does not raise `RateLimited`: it consumes a
further attempt and returns that attempt's body, contradicting the claim
that both fetch shapes raise the distinguished signal immediately. -/
theorem fetch_full_html_retries_hard_rate_limit :
    fetchFullHtmlCall
        [.http 429 "Rate Limited - Liquipedia" false false,
         .http 200 "<html>page</html>" false false] = .ok "<html>page</html>" ∧
    fetchFullHtmlCall
        [.http 429 "Rate Limited - Liquipedia" false false,
         .http 200 "<html>page</html>" false false] ≠ .rateLimited := by
  decide

/-- C1 (amended): the structured JSON API call raises `RateLimited` the
moment an attempt is classified as a hard rate limit, with no backoff and
no further attempt consumed (the result does not depend on the remaining
attempts); the raw-document fetch instead treats the same classification
as retryable, moving on to the next attempt within the call. -/
theorem hard_rate_limit_fetch_paths (a : HttpAttempt) (rest : List HttpAttempt)
    (h : isHardRateLimit a = true) :
    requestCall (a :: rest) = .rateLimited ∧
    fetchFullHtmlCall (a :: rest) = fetchFullHtmlCall rest := by
  cases a with
  | netError => simp [isHardRateLimit] at h
  | http status body isJson hasApiError =>
    rw [isHardRateLimit] at h
    exact ⟨by rw [requestCall, if_pos h], by rw [fetchFullHtmlCall, if_pos h]⟩

/-- Witness for C1's amended theorem at a concrete 429 attempt. -/
theorem hard_rate_limit_fetch_paths_witness :
    isHardRateLimit (.http 429 "" true false) = true ∧
    requestCall [.http 429 "" true false] = .rateLimited :=
  ⟨by decide, (hard_rate_limit_fetch_paths (.http 429 "" true false) [] (by decide)).1⟩

/-- C2: when obtaining item `i`'s content raises `RateLimited`, the stage
emits exactly one event — a durable checkpoint write of the current,
unadvanced index `i` — and terminates on the spot, processing no further
item; in particular the checkpoint visible afterwards is exactly `i`. -/
theorem rate_limited_checkpoints_current_index (outcome : Nat → ItemOutcome)
    (i fuel : Nat) (h : outcome i = .rateLimited) (hf : 0 < fuel) :
    processTrace outcome i fuel = [.setCkpt i] ∧
    lastCkpt (processTrace outcome i fuel) = some i := by
  cases fuel with
  | zero => exact absurd hf (Nat.lt_irrefl 0)
  | succ n =>
    have ht : processTrace outcome i (n + 1) = [.setCkpt i] := by
      rw [processTrace, h]
    exact ⟨ht, by rw [ht]; rfl⟩

/-- Witness for C2 at a concrete run: the first item rate-limits. -/
theorem rate_limited_checkpoints_current_index_witness :
    processTrace (fun _ => ItemOutcome.rateLimited) 3 5 = [.setCkpt 3] ∧
    lastCkpt (processTrace (fun _ => ItemOutcome.rateLimited) 3 5) = some 3 :=
  rate_limited_checkpoints_current_index (fun _ => ItemOutcome.rateLimited) 3 5 rfl
    (by decide)

/-- C6: when obtaining or interpreting item `i`'s content fails with any
exception other than `RateLimited`, the stage durably sets the checkpoint
to `i + 1`, stores nothing for item `i` (no `writes i` event occurs
anywhere in the run's remaining trace), and continues with item `i + 1`. -/
theorem other_error_skips_and_continues (outcome : Nat → ItemOutcome)
    (i fuel : Nat) (h : outcome i = .otherError) (hf : 0 < fuel) :
    processTrace outcome i fuel =
      .setCkpt (i + 1) :: processTrace outcome (i + 1) (fuel - 1) ∧
    StageEvent.writes i ∉ processTrace outcome i fuel := by
  cases fuel with
  | zero => exact absurd hf (Nat.lt_irrefl 0)
  | succ n =>
    have ht : processTrace outcome i (n + 1) =
        .setCkpt (i + 1) :: processTrace outcome (i + 1) n := by
      rw [processTrace, h]
    refine ⟨ht, ?_⟩
    rw [ht]
    intro hmem
    rcases List.mem_cons.mp hmem with h' | h'
    · cases h'
    · exact absurd (writes_mem_processTrace h') (by omega)

/-- Witness for C6 at a concrete run: item 0 fails non-fatally, item 1
succeeds and is still processed. -/
theorem other_error_skips_and_continues_witness :
    processTrace (fun n => if n == 0 then ItemOutcome.otherError else .success) 0 2 =
      [.setCkpt 1, .writes 1, .commit, .setCkpt 2] ∧
    StageEvent.writes 0 ∉
      processTrace (fun n => if n == 0 then ItemOutcome.otherError else .success) 0 2 := by
  have h := other_error_skips_and_continues
    (fun n => if n == 0 then ItemOutcome.otherError else .success) 0 2 rfl (by decide)
  exact ⟨by rw [h.1]; rfl, h.2⟩

/-- C5: crash consistency of the players stage.  For any truncated prefix
`p` of the stage's event trace (an unclean stop), if the last durable
checkpoint write in `p` is `v`, then every successfully processed item
`i` of this run with `i < v` already has its inserts committed inside
`p`: the checkpoint is advanced to `i + 1` only after item `i`'s storage
commit, and never points past an uncommitted item. -/
theorem checkpoint_never_past_uncommitted (outcome : Nat → ItemOutcome) :
    ∀ (fuel start : Nat) (p q : List StageEvent) (v i : Nat),
      processTrace outcome start fuel = p ++ q →
      lastCkpt p = some v →
      start ≤ i → i < v → outcome i = .success →
      committedIn p i := by
  intro fuel
  induction fuel with
  | zero =>
    intro start p q v i hpq hl _ _ _
    rw [processTrace] at hpq
    cases p with
    | nil => exact Option.noConfusion hl
    | cons x xs => simp at hpq
  | succ n ih =>
    intro start p q v i hpq hl hsi hiv hsucc
    rw [processTrace] at hpq
    cases ho : outcome start with
    | rateLimited =>
      rw [ho] at hpq
      rcases List.append_eq_cons_iff.mp hpq.symm with ⟨hp, _⟩ | ⟨p', hp, hq⟩
      · rw [hp] at hl; exact Option.noConfusion hl
      · cases p' with
        | cons x xs => simp at hq
        | nil =>
          rw [hp] at hl
          have hv : start = v := Option.some.inj hl
          omega
    | otherError =>
      rw [ho] at hpq
      rcases List.append_eq_cons_iff.mp hpq.symm with ⟨hp, _⟩ | ⟨p', hp, hq⟩
      · rw [hp] at hl; exact Option.noConfusion hl
      · subst hp
        have hl' : (match lastCkpt p' with
            | some u => some u
            | none => some (start + 1)) = some v := by
          rw [← lastCkpt_foldl p' (some (start + 1))]; exact hl
        cases hlp : lastCkpt p' with
        | none =>
          rw [hlp] at hl'
          have hv : start + 1 = v := Option.some.inj hl'
          have hi : i = start := by omega
          rw [hi, ho] at hsucc
          exact ItemOutcome.noConfusion hsucc
        | some w =>
          rw [hlp] at hl'
          have hv : w = v := Option.some.inj hl'
          by_cases hi : i = start
          · rw [hi, ho] at hsucc; exact ItemOutcome.noConfusion hsucc
          · exact committedIn_cons _
              (ih (start + 1) p' q w i hq hlp (by omega) (by omega) hsucc)
    | success =>
      rw [ho] at hpq
      rcases List.append_eq_cons_iff.mp hpq.symm with ⟨hp, _⟩ | ⟨p₁, hp, hq1⟩
      · rw [hp] at hl; exact Option.noConfusion hl
      · subst hp
        rcases List.append_eq_cons_iff.mp hq1.symm with ⟨hp₁, _⟩ | ⟨p₂, hp₂, hq2⟩
        · rw [hp₁] at hl; exact Option.noConfusion hl
        · subst hp₂
          rcases List.append_eq_cons_iff.mp hq2.symm with ⟨hp₂', _⟩ | ⟨p₃, hp₃, hq3⟩
          · rw [hp₂'] at hl; exact Option.noConfusion hl
          · subst hp₃
            by_cases hi : i = start
            · subst hi
              exact ⟨[.writes i], .commit :: .setCkpt (i + 1) :: p₃, rfl,
                List.mem_singleton.mpr rfl, List.mem_cons_self _ _⟩
            · have hl' : (match lastCkpt p₃ with
                  | some u => some u
                  | none => some (start + 1)) = some v := by
                rw [← lastCkpt_foldl p₃ (some (start + 1))]; exact hl
              cases hlp : lastCkpt p₃ with
              | none =>
                rw [hlp] at hl'
                have hv : start + 1 = v := Option.some.inj hl'
                omega
              | some w =>
                rw [hlp] at hl'
                have hv : w = v := Option.some.inj hl'
                exact committedIn_cons _ (committedIn_cons _ (committedIn_cons _
                  (ih (start + 1) p₃ q w i hq3 hlp (by omega) (by omega) hsucc)))

/-- Witness for C5 at a concrete run: two successful items, the stop
truncates nothing; the checkpoint reads 2 and item 0 is committed within
the stopped prefix. -/
theorem checkpoint_never_past_uncommitted_witness :
    committedIn [.writes 0, .commit, .setCkpt 1, .writes 1, .commit, .setCkpt 2] 0 :=
  checkpoint_never_past_uncommitted (fun _ => ItemOutcome.success) 2 0
    [.writes 0, .commit, .setCkpt 1, .writes 1, .commit, .setCkpt 2] [] 2 0
    rfl rfl (Nat.le_refl 0) (by decide) rfl

/-- C10: the discovered title list is strictly ascending under the
code-point order (hence duplicate-free and deterministic in the matching
set), the same for any permutation of the document's anchors, and every
returned title survives the drop tests: it contains no `:` and no `/`
and does not start (case-insensitively) with portal, help, special or
category. -/
theorem discover_titles_sorted_unique_filtered (hrefs : List String) :
    List.Pairwise (fun a b => strLeR a b ∧ a ≠ b)
      (discover_player_titles_from_html hrefs) ∧
    (∀ t ∈ discover_player_titles_from_html hrefs,
      t.contains ':' = false ∧ t.contains '/' = false ∧
      (t.toLower.startsWith "portal" || t.toLower.startsWith "help" ||
        t.toLower.startsWith "special" || t.toLower.startsWith "category") = false) ∧
    (∀ hrefs', hrefs.Perm hrefs' →
      discover_player_titles_from_html hrefs =
        discover_player_titles_from_html hrefs') := by
  refine ⟨?_, ?_, ?_⟩
  · have hsorted : List.Pairwise strLeR (discover_player_titles_from_html hrefs) :=
      List.sorted_insertionSort strLeR _
    have hnodup : (discover_player_titles_from_html hrefs).Nodup :=
      (List.perm_insertionSort strLeR _).symm.nodup (List.nodup_dedup _)
    exact hsorted.and hnodup
  · intro t ht
    have ht' : t ∈ (hrefs.filterMap candidateTitle).dedup :=
      (List.perm_insertionSort strLeR _).mem_iff.mp ht
    have ht'' : t ∈ hrefs.filterMap candidateTitle := List.mem_dedup.mp ht'
    obtain ⟨href, _, hc⟩ := List.mem_filterMap.mp ht''
    rw [candidateTitle] at hc
    cases hh : hrefTitle href with
    | none => rw [hh] at hc; exact Option.noConfusion hc
    | some title =>
      rw [hh] at hc
      have hc2 : (if titleRejected title = true then none else some title) = some t := hc
      by_cases hr : titleRejected title = true
      · rw [if_pos hr] at hc2; exact Option.noConfusion hc2
      · rw [if_neg hr] at hc2
        have htt : title = t := Option.some.inj hc2
        rw [titleRejected] at hr
        rw [← htt]
        simp only [Bool.or_eq_true, not_or, Bool.not_eq_true] at hr
        refine ⟨hr.1.1, hr.1.2, ?_⟩
        simp only [Bool.or_eq_false_iff]
        exact hr.2
  · intro hrefs' hperm
    have hmid : (hrefs.filterMap candidateTitle).dedup.Perm
        (hrefs'.filterMap candidateTitle).dedup :=
      (hperm.filterMap candidateTitle).dedup
    have hp : (discover_player_titles_from_html hrefs).Perm
        (discover_player_titles_from_html hrefs') :=
      ((List.perm_insertionSort strLeR _).trans hmid).trans
        (List.perm_insertionSort strLeR _).symm
    exact List.eq_of_perm_of_sorted hp
      (List.sorted_insertionSort strLeR _) (List.sorted_insertionSort strLeR _)

/-- Witness for C10's permutation hypothesis: reversing the anchor order
of a concrete document leaves the discovered list unchanged. -/
theorem discover_titles_sorted_unique_filtered_witness :
    discover_player_titles_from_html
        ["/leagueoflegends/B_Player", "/leagueoflegends/Alpha", "/other/x"] =
      discover_player_titles_from_html
        ["/other/x", "/leagueoflegends/Alpha", "/leagueoflegends/B_Player"] :=
  (discover_titles_sorted_unique_filtered
      ["/leagueoflegends/B_Player", "/leagueoflegends/Alpha", "/other/x"]).2.2
    ["/other/x", "/leagueoflegends/Alpha", "/leagueoflegends/B_Player"] (by decide)

/-! ## Helper lemmas about the SQL MIN/MAX folds -/

theorem strLe_trans {a b c : String} (hab : strLe a b = true) (hbc : strLe b c = true) :
    strLe a c = true :=
  lexLe_trans a.data b.data c.data hab hbc

theorem strLe_total (a b : String) : strLe a b = true ∨ strLe b a = true :=
  lexLe_total a.data b.data

theorem minAcc_le_left (a b : String) : strLe (minAcc a b) a = true := by
  rw [minAcc]
  split
  · exact strLe_refl a
  · next hnot =>
    rcases strLe_total a b with h | h
    · exact absurd h hnot
    · exact h

theorem minAcc_le_right (a b : String) : strLe (minAcc a b) b = true := by
  rw [minAcc]
  split
  · next h => exact h
  · exact strLe_refl b

theorem minAcc_eq_or (a b : String) : minAcc a b = a ∨ minAcc a b = b := by
  rw [minAcc]; split <;> simp

theorem maxAcc_ge_left (a b : String) : strLe a (maxAcc a b) = true := by
  rw [maxAcc]
  split
  · next h => exact h
  · exact strLe_refl a

theorem maxAcc_ge_right (a b : String) : strLe b (maxAcc a b) = true := by
  rw [maxAcc]
  split
  · exact strLe_refl b
  · next hnot =>
    rcases strLe_total b a with h | h
    · exact h
    · exact absurd h hnot

theorem maxAcc_eq_or (a b : String) : maxAcc a b = a ∨ maxAcc a b = b := by
  rw [maxAcc]; split <;> simp

theorem foldl_minAcc_spec (xs : List String) : ∀ a : String,
    (xs.foldl minAcc a = a ∨ xs.foldl minAcc a ∈ xs) ∧
    strLe (xs.foldl minAcc a) a = true ∧
    ∀ j ∈ xs, strLe (xs.foldl minAcc a) j = true := by
  induction xs with
  | nil =>
    intro a
    exact ⟨Or.inl rfl, strLe_refl a, by intro j hj; cases hj⟩
  | cons b xs ih =>
    intro a
    have h := ih (minAcc a b)
    rw [List.foldl_cons]
    refine ⟨?_, ?_, ?_⟩
    · rcases h.1 with he | hm
      · rcases minAcc_eq_or a b with h1 | h1
        · exact Or.inl (he.trans h1)
        · exact Or.inr (List.mem_cons.mpr (Or.inl (he.trans h1)))
      · exact Or.inr (List.mem_cons.mpr (Or.inr hm))
    · exact strLe_trans h.2.1 (minAcc_le_left a b)
    · intro j hj
      rcases List.mem_cons.mp hj with hj | hj
      · rw [hj]; exact strLe_trans h.2.1 (minAcc_le_right a b)
      · exact h.2.2 j hj

theorem foldl_maxAcc_spec (xs : List String) : ∀ a : String,
    (xs.foldl maxAcc a = a ∨ xs.foldl maxAcc a ∈ xs) ∧
    strLe a (xs.foldl maxAcc a) = true ∧
    ∀ j ∈ xs, strLe j (xs.foldl maxAcc a) = true := by
  induction xs with
  | nil =>
    intro a
    exact ⟨Or.inl rfl, strLe_refl a, by intro j hj; cases hj⟩
  | cons b xs ih =>
    intro a
    have h := ih (maxAcc a b)
    rw [List.foldl_cons]
    refine ⟨?_, ?_, ?_⟩
    · rcases h.1 with he | hm
      · rcases maxAcc_eq_or a b with h1 | h1
        · exact Or.inl (he.trans h1)
        · exact Or.inr (List.mem_cons.mpr (Or.inl (he.trans h1)))
      · exact Or.inr (List.mem_cons.mpr (Or.inr hm))
    · exact strLe_trans (maxAcc_ge_left a b) h.2.1
    · intro j hj
      rcases List.mem_cons.mp hj with hj | hj
      · rw [hj]; exact strLe_trans (maxAcc_ge_right a b) h.2.1
      · exact h.2.2 j hj

theorem sqlMin_spec {l : List String} {m : String} (h : sqlMin l = some m) :
    m ∈ l ∧ ∀ j ∈ l, strLe m j = true := by
  cases l with
  | nil => exact Option.noConfusion h
  | cons x xs =>
    have hm : xs.foldl minAcc x = m := Option.some.inj h
    have hs := foldl_minAcc_spec xs x
    rw [hm] at hs
    refine ⟨?_, ?_⟩
    · rcases hs.1 with he | hmem
      · exact List.mem_cons.mpr (Or.inl he)
      · exact List.mem_cons.mpr (Or.inr hmem)
    · intro j hj
      rcases List.mem_cons.mp hj with hj | hj
      · rw [hj]; exact hs.2.1
      · exact hs.2.2 j hj

theorem sqlMax_spec {l : List String} {m : String} (h : sqlMax l = some m) :
    m ∈ l ∧ ∀ j ∈ l, strLe j m = true := by
  cases l with
  | nil => exact Option.noConfusion h
  | cons x xs =>
    have hm : xs.foldl maxAcc x = m := Option.some.inj h
    have hs := foldl_maxAcc_spec xs x
    rw [hm] at hs
    refine ⟨?_, ?_⟩
    · rcases hs.1 with he | hmem
      · exact List.mem_cons.mpr (Or.inl he)
      · exact List.mem_cons.mpr (Or.inr hmem)
    · intro j hj
      rcases List.mem_cons.mp hj with hj | hj
      · rw [hj]; exact hs.2.1
      · exact hs.2.2 j hj

theorem careerRowFor_title {stints : List StintRow} {today p : String} {c : CareerRow}
    (h : careerRowFor stints today p = some c) : c.player_title = p := by
  rw [careerRowFor] at h
  by_cases hg : careerGroup stints p = []
  · rw [if_pos hg] at h; exact Option.noConfusion h
  · rw [if_neg hg] at h
    have := Option.some.inj h
    rw [← this]

theorem sqlMin_ne_nil {l : List String} (h : l ≠ []) : ∃ m, sqlMin l = some m := by
  cases l with
  | nil => exact absurd rfl h
  | cons x xs => exact ⟨xs.foldl minAcc x, rfl⟩

theorem sqlMax_ne_nil {l : List String} (h : l ≠ []) : ∃ m, sqlMax l = some m := by
  cases l with
  | nil => exact absurd rfl h
  | cons x xs => exact ⟨xs.foldl maxAcc x, rfl⟩

/-- C7 (counterexample): a player with two stored stints, one of which has
a `NULL` joined date, gets a rebuilt career row with `stints_count = 1`:
the aggregation counts only rows passing `WHERE joined IS NOT NULL`, not
"the number of stints" of the player. -/
theorem careers_null_joined_stint_uncounted :
    careersRun []
        [⟨"P", some "T1", some "2013-01-01", some "2014-01-01", none, none, "t"⟩,
         ⟨"P", some "T2", none, none, none, none, "t"⟩] "2026-10-12" =
      [{ player_title := "P", career_start := some "2013-01-01",
         career_end := some "2014-01-01", career_days := some 365,
         stints_count := 1 }] ∧
    ([⟨"P", some "T1", some "2013-01-01", some "2014-01-01", none, none, "t"⟩,
      (⟨"P", some "T2", none, none, none, none, "t"⟩ : StintRow)].filter
        (fun r => r.player_title == "P")).length = 2 := by
  decide

/-- C7 (amended): for every player with at least one stored stint whose
joined date is non-null, the rebuild (which discards all previous derived
rows) produces exactly one career row for that player, whose
`career_start` is the earliest joined date among the player's
non-null-joined stints, whose `career_end` is the latest of those stints'
left dates with an absent left taken as today, whose `stints_count` is
the number of those stints (rows with a null joined date are excluded
from the aggregation entirely), and whose `career_days` is the day span
between the two bounds. -/
theorem careers_rebuild_spec (stints : List StintRow) (today p : String)
    (r₀ : StintRow) (hr : r₀ ∈ stints) (hp : r₀.player_title = p)
    (hj : r₀.joined.isSome = true) :
    ∃ c st en,
      careerRowFor stints today p = some c ∧
      (∀ old, c ∈ careersRun old stints today ∧
        ∀ c' ∈ careersRun old stints today, c'.player_title = p → c' = c) ∧
      c.career_start = some st ∧ st ∈ careerJoineds stints p ∧
      (∀ j ∈ careerJoineds stints p, strLe st j = true) ∧
      c.career_end = some en ∧ en ∈ careerEnds stints today p ∧
      (∀ e ∈ careerEnds stints today p, strLe e en = true) ∧
      c.stints_count = (careerGroup stints p).length ∧
      c.career_days = careerDaysOf st en := by
  have hmemg : r₀ ∈ careerGroup stints p := by
    rw [careerGroup]
    exact List.mem_filter.mpr ⟨hr, by rw [hp]; simp [hj]⟩
  have hgne : careerGroup stints p ≠ [] := List.ne_nil_of_mem hmemg
  have hrow : careerRowFor stints today p =
      some { player_title := p
             career_start := sqlMin (careerJoineds stints p)
             career_end := sqlMax (careerEnds stints today p)
             career_days :=
               careerDaysField (sqlMin (careerJoineds stints p))
                 (sqlMax (careerEnds stints today p))
             stints_count := (careerGroup stints p).length } := by
    rw [careerRowFor, if_neg hgne]
  obtain ⟨d, hd⟩ := Option.isSome_iff_exists.mp hj
  have hdmem : d ∈ careerJoineds stints p := by
    rw [careerJoineds]
    exact List.mem_filterMap.mpr ⟨r₀, hmemg, hd⟩
  obtain ⟨st, hst⟩ := sqlMin_ne_nil (List.ne_nil_of_mem hdmem)
  have hemem : r₀.left.getD today ∈ careerEnds stints today p := by
    rw [careerEnds]
    exact List.mem_map.mpr ⟨r₀, hmemg, rfl⟩
  obtain ⟨en, hen⟩ := sqlMax_ne_nil (List.ne_nil_of_mem hemem)
  refine ⟨_, st, en, hrow, ?_, hst, (sqlMin_spec hst).1, (sqlMin_spec hst).2,
    hen, (sqlMax_spec hen).1, (sqlMax_spec hen).2, rfl, ?_⟩
  · intro old
    constructor
    · rw [careersRun]
      refine List.mem_filterMap.mpr ⟨p, ?_, hrow⟩
      rw [careerPlayers]
      exact List.mem_dedup.mpr
        (List.mem_map.mpr ⟨r₀, List.mem_filter.mpr ⟨hr, hj⟩, hp⟩)
    · intro c' hc' hpc'
      rw [careersRun] at hc'
      obtain ⟨q, _, hcq⟩ := List.mem_filterMap.mp hc'
      have hq : q = p := by rw [← careerRowFor_title hcq, hpc']
      rw [hq, hrow] at hcq
      exact (Option.some.inj hcq).symm
  · show careerDaysField (sqlMin (careerJoineds stints p))
      (sqlMax (careerEnds stints today p)) = careerDaysOf st en
    rw [hst, hen]
    rfl

/-- Witness for C7's amended theorem at the spec's own example: stints
2013-02-06 to 2014-12-02 and 2014-12-02 to null (ongoing), aggregated on
2026-10-12, give career start 2013-02-06, career end equal to today,
stint count 2 and a 4996-day span. -/
theorem careers_rebuild_spec_witness :
    careersRun []
        [⟨"Faker", some "SK Telecom T1 K", some "2013-02-06", some "2014-12-02",
          none, none, "t"⟩,
         ⟨"Faker", some "T1", some "2014-12-02", none, none, none, "t"⟩]
        "2026-10-12" =
      [{ player_title := "Faker", career_start := some "2013-02-06",
         career_end := some "2026-10-12", career_days := some 4996,
         stints_count := 2 }] ∧
    (∃ c st en,
      careerRowFor
          [⟨"Faker", some "SK Telecom T1 K", some "2013-02-06", some "2014-12-02",
            none, none, "t"⟩,
           ⟨"Faker", some "T1", some "2014-12-02", none, none, none, "t"⟩]
          "2026-10-12" "Faker" = some c ∧
      (∀ old, c ∈ careersRun old
          [⟨"Faker", some "SK Telecom T1 K", some "2013-02-06", some "2014-12-02",
            none, none, "t"⟩,
           ⟨"Faker", some "T1", some "2014-12-02", none, none, none, "t"⟩]
          "2026-10-12" ∧
        ∀ c' ∈ careersRun old
            [⟨"Faker", some "SK Telecom T1 K", some "2013-02-06", some "2014-12-02",
              none, none, "t"⟩,
             ⟨"Faker", some "T1", some "2014-12-02", none, none, none, "t"⟩]
            "2026-10-12", c'.player_title = "Faker" → c' = c) ∧
      c.career_start = some st ∧
      st ∈ careerJoineds
        [⟨"Faker", some "SK Telecom T1 K", some "2013-02-06", some "2014-12-02",
          none, none, "t"⟩,
         ⟨"Faker", some "T1", some "2014-12-02", none, none, none, "t"⟩] "Faker" ∧
      (∀ j ∈ careerJoineds
          [⟨"Faker", some "SK Telecom T1 K", some "2013-02-06", some "2014-12-02",
            none, none, "t"⟩,
           ⟨"Faker", some "T1", some "2014-12-02", none, none, none, "t"⟩] "Faker",
        strLe st j = true) ∧
      c.career_end = some en ∧
      en ∈ careerEnds
        [⟨"Faker", some "SK Telecom T1 K", some "2013-02-06", some "2014-12-02",
          none, none, "t"⟩,
         ⟨"Faker", some "T1", some "2014-12-02", none, none, none, "t"⟩]
        "2026-10-12" "Faker" ∧
      (∀ e ∈ careerEnds
          [⟨"Faker", some "SK Telecom T1 K", some "2013-02-06", some "2014-12-02",
            none, none, "t"⟩,
           ⟨"Faker", some "T1", some "2014-12-02", none, none, none, "t"⟩]
          "2026-10-12" "Faker",
        strLe e en = true) ∧
      c.stints_count =
        (careerGroup
          [⟨"Faker", some "SK Telecom T1 K", some "2013-02-06", some "2014-12-02",
            none, none, "t"⟩,
           ⟨"Faker", some "T1", some "2014-12-02", none, none, none, "t"⟩]
          "Faker").length ∧
      c.career_days = careerDaysOf st en) :=
  ⟨by decide,
    careers_rebuild_spec
      [⟨"Faker", some "SK Telecom T1 K", some "2013-02-06", some "2014-12-02",
        none, none, "t"⟩,
       ⟨"Faker", some "T1", some "2014-12-02", none, none, none, "t"⟩]
      "2026-10-12" "Faker"
      ⟨"Faker", some "SK Telecom T1 K", some "2013-02-06", some "2014-12-02",
        none, none, "t"⟩
      (by decide) rfl rfl⟩

/-! ## Helper lemmas for the rate limiter -/

theorem dropExpired_eq_filter {l : List Rat} (hs : l.Sorted (· ≤ ·)) (now W : Rat) :
    dropExpired now W l = l.filter (fun s => decide (now - s < W)) := by
  induction l with
  | nil => rfl
  | cons a l ih =>
    have hsl : l.Sorted (· ≤ ·) := hs.of_cons
    by_cases hpa : W ≤ now - a
    · rw [dropExpired, List.dropWhile_cons,
        if_pos (by simp only [decide_eq_true_eq]; exact hpa), List.filter_cons,
        if_neg (by simp only [decide_eq_true_eq]; exact not_lt.mpr hpa)]
      exact ih hsl
    · have hqa : now - a < W := lt_of_not_ge hpa
      rw [dropExpired, List.dropWhile_cons,
        if_neg (by simp only [decide_eq_true_eq]; exact hpa), List.filter_cons,
        if_pos (by simp only [decide_eq_true_eq]; exact hqa)]
      have hself : l.filter (fun s => decide (now - s < W)) = l := by
        apply List.filter_eq_self.mpr
        intro b hb
        have hab : a ≤ b := List.rel_of_sorted_cons hs b hb
        exact decide_eq_true (by linarith)
      rw [hself]

theorem filter_window_mono {hist : List Rat} {t1 t2 W : Rat} (h12 : t1 ≤ t2) :
    (hist.filter (fun s => decide (t1 - s < W))).filter
        (fun s => decide (t2 - s < W)) =
      hist.filter (fun s => decide (t2 - s < W)) := by
  rw [List.filter_filter]
  apply List.filter_congr
  intro x _
  by_cases hcase : t2 - x < W
  · have h2 : t1 - x < W := lt_of_le_of_lt (by linarith) hcase
    simp [hcase, h2]
  · simp [hcase]

theorem windowCount_extend {N : Nat} {W : Rat} {hist : List Rat} {a : Rat}
    (hle : ∀ t ∈ hist, t ≤ a)
    (hwc : ∀ t, windowCount W hist t ≤ N)
    (hlen : ((hist ++ [a]).filter (fun s => decide (a - s < W))).length ≤ N) :
    ∀ t, windowCount W (hist ++ [a]) t ≤ N := by
  intro t
  by_cases hta : a ≤ t
  · have hmono : windowCount W (hist ++ [a]) t ≤
        (hist ++ [a]).countP (fun s => decide (a - s < W)) := by
      apply List.countP_mono_left
      intro x hx hpx
      have hxa : x ≤ a := by
        rcases List.mem_append.mp hx with h | h
        · exact hle x h
        · rw [List.mem_singleton.mp h]
      have hpx' : t - W < x ∧ x ≤ t := of_decide_eq_true hpx
      exact decide_eq_true (by linarith [hpx'.1, hpx'.2])
    calc windowCount W (hist ++ [a]) t
        ≤ (hist ++ [a]).countP (fun s => decide (a - s < W)) := hmono
      _ = ((hist ++ [a]).filter (fun s => decide (a - s < W))).length :=
          List.countP_eq_length_filter _ _
      _ ≤ N := hlen
  · have hsplit : windowCount W (hist ++ [a]) t =
        windowCount W hist t + [a].countP (fun s => decide (t - W < s ∧ s ≤ t)) :=
      List.countP_append _ _ _
    have hzero : [a].countP (fun s => decide (t - W < s ∧ s ≤ t)) = 0 := by
      have hfalse : decide (t - W < a ∧ a ≤ t) = false :=
        decide_eq_false (fun h => hta h.2)
      rw [List.countP_cons, List.countP_nil]
      simp only [hfalse]
      rfl
    rw [hsplit, hzero]
    simpa using hwc t

/-- The inductive invariant of the rate limiter: the deque is exactly the
in-window suffix of the full (chronological) admission history, it never
exceeds capacity, and no trailing window of the history ever holds more
than `N` admissions. -/
structure LimInv (N : Nat) (W : Rat) (hist : List Rat) (lim : HourlyRateLimiter)
    (tlast : Rat) : Prop where
  max_eq : lim.max_requests = N
  win_eq : lim.window_seconds = W
  hsorted : hist.Sorted (· ≤ ·)
  hbounded : ∀ t ∈ hist, t ≤ tlast
  ts_eq : lim.timestamps = hist.filter (fun s => decide (tlast - s < W))
  len_le : lim.timestamps.length ≤ N
  hwindow : ∀ t, windowCount W hist t ≤ N

theorem limInv_step {N : Nat} {W : Rat} {hist : List Rat} {lim : HourlyRateLimiter}
    {tlast : Rat} (hN : 0 < N) (hW : 0 < W) (hinv : LimInv N W hist lim tlast)
    (now jitter now2 : Rat) (hnow : tlast ≤ now) (hj : 1/2 ≤ jitter)
    (hn2 : now + sleepFor lim.window_seconds now jitter
        (dropExpired now lim.window_seconds lim.timestamps) ≤ now2) :
    LimInv N W (hist ++ [admittedAt lim now jitter now2])
      (wait_for_slot lim now jitter now2) (admittedAt lim now jitter now2) ∧
    tlast ≤ admittedAt lim now jitter now2 := by
  obtain ⟨hmax, hweq, hsort, hbnd, hts, hlen, hwc⟩ := hinv
  have hsortf : (hist.filter (fun s => decide (tlast - s < W))).Sorted (· ≤ ·) :=
    hsort.filter _
  have hts1 : dropExpired now lim.window_seconds lim.timestamps =
      hist.filter (fun s => decide (now - s < W)) := by
    rw [hts, hweq, dropExpired_eq_filter hsortf, filter_window_mono hnow]
  have hsort1 : (dropExpired now lim.window_seconds lim.timestamps).Sorted (· ≤ ·) := by
    rw [hts1]; exact hsort.filter _
  by_cases hbr : (dropExpired now lim.window_seconds lim.timestamps).length <
      lim.max_requests
  · -- free-slot branch: the request is admitted at `now`
    have hadm : admittedAt lim now jitter now2 = now := by rw [admittedAt, if_pos hbr]
    have hws : wait_for_slot lim now jitter now2 =
        { lim with timestamps := dropExpired now lim.window_seconds lim.timestamps ++ [now] } := by
      rw [wait_for_slot, if_pos hbr]
    rw [hadm, hws]
    have hnewfilter : (hist ++ [now]).filter (fun s => decide (now - s < W)) =
        hist.filter (fun s => decide (now - s < W)) ++ [now] := by
      rw [List.filter_append, List.filter_cons,
        if_pos (by simp only [decide_eq_true_eq]; simpa using hW)]
      rfl
    have hlennew : (dropExpired now lim.window_seconds lim.timestamps ++ [now]).length ≤ N := by
      rw [List.length_append, List.length_singleton]
      have : (dropExpired now lim.window_seconds lim.timestamps).length < N := by
        rw [← hmax]; exact hbr
      omega
    refine ⟨⟨hmax, hweq, ?_, ?_, ?_, ?_, ?_⟩, hnow⟩
    · exact List.pairwise_append.mpr
        ⟨hsort, List.pairwise_singleton _ _,
          fun a ha b hb => by
            rw [List.mem_singleton.mp hb]
            exact le_trans (hbnd a ha) hnow⟩
    · intro t ht
      rcases List.mem_append.mp ht with h | h
      · exact le_trans (hbnd t h) hnow
      · rw [List.mem_singleton.mp h]
    · show dropExpired now lim.window_seconds lim.timestamps ++ [now] = _
      rw [hnewfilter, hts1]
    · show (dropExpired now lim.window_seconds lim.timestamps ++ [now]).length ≤ N
      exact hlennew
    · apply windowCount_extend
        (fun t ht => le_trans (hbnd t ht) hnow) hwc
      rw [hnewfilter, ← hts1]
      exact hlennew
  · -- full-window branch: the request is admitted at `now2` after sleeping
    have hadm : admittedAt lim now jitter now2 = now2 := by rw [admittedAt, if_neg hbr]
    have hws : wait_for_slot lim now jitter now2 =
        { lim with timestamps := (dropExpired now2 lim.window_seconds (dropExpired now lim.window_seconds lim.timestamps)) ++ [now2] } := by
      rw [wait_for_slot, if_neg hbr]
    have hlen1 : (dropExpired now lim.window_seconds lim.timestamps).length ≤ N :=
      le_trans (List.Sublist.length_le (List.dropWhile_sublist _)) hlen
    have hlenN : (dropExpired now lim.window_seconds lim.timestamps).length = N := by
      have := not_lt.mp hbr
      rw [hmax] at this
      omega
    have hne : dropExpired now lim.window_seconds lim.timestamps ≠ [] := by
      intro h
      rw [h] at hlenN
      simp at hlenN
      omega
    obtain ⟨x, xs, hcons⟩ := List.exists_cons_of_ne_nil hne
    have hsleep : sleepFor lim.window_seconds now jitter
        (dropExpired now lim.window_seconds lim.timestamps) =
        max 1 (lim.window_seconds - (now - x) + jitter) := by
      rw [sleepFor, hcons]
      rfl
    have hnow2_far : x + W + 1/2 ≤ now2 := by
      have h1 : lim.window_seconds - (now - x) + jitter ≤
          sleepFor lim.window_seconds now jitter
            (dropExpired now lim.window_seconds lim.timestamps) := by
        rw [hsleep]; exact le_max_right _ _
      rw [hweq] at h1 hn2
      linarith
    have hnow2_gt : now < now2 := by
      have h1 : (1:Rat) ≤ sleepFor lim.window_seconds now jitter
          (dropExpired now lim.window_seconds lim.timestamps) := by
        rw [hsleep]; exact le_max_left _ _
      linarith
    have hnow_le2 : now ≤ now2 := le_of_lt hnow2_gt
    have hts2 : dropExpired now2 lim.window_seconds
        (dropExpired now lim.window_seconds lim.timestamps) =
        hist.filter (fun s => decide (now2 - s < W)) := by
      rw [hts1, hweq, dropExpired_eq_filter (hsort.filter _), filter_window_mono hnow_le2]
    have hlen2 : (dropExpired now2 lim.window_seconds
        (dropExpired now lim.window_seconds lim.timestamps)).length ≤ N - 1 := by
      rw [hcons, dropExpired, List.dropWhile_cons,
        if_pos (by simp only [decide_eq_true_eq]; linarith)]
      have hsub : (List.dropWhile (fun t => decide (lim.window_seconds ≤ now2 - t)) xs).length ≤
          xs.length := List.Sublist.length_le (List.dropWhile_sublist _)
      have hxs : xs.length = N - 1 := by
        rw [hcons] at hlenN
        simp at hlenN
        omega
      rw [← hxs] at *
      exact hsub
    rw [hadm, hws]
    have hnewfilter : (hist ++ [now2]).filter (fun s => decide (now2 - s < W)) =
        hist.filter (fun s => decide (now2 - s < W)) ++ [now2] := by
      rw [List.filter_append, List.filter_cons,
        if_pos (by simp only [decide_eq_true_eq]; simpa using hW)]
      rfl
    have hlennew : ((dropExpired now2 lim.window_seconds
        (dropExpired now lim.window_seconds lim.timestamps)) ++ [now2]).length ≤ N := by
      rw [List.length_append, List.length_singleton]
      omega
    refine ⟨⟨hmax, hweq, ?_, ?_, ?_, ?_, ?_⟩, le_trans hnow hnow_le2⟩
    · exact List.pairwise_append.mpr
        ⟨hsort, List.pairwise_singleton _ _,
          fun a ha b hb => by
            rw [List.mem_singleton.mp hb]
            exact le_trans (hbnd a ha) (le_trans hnow hnow_le2)⟩
    · intro t ht
      rcases List.mem_append.mp ht with h | h
      · exact le_trans (hbnd t h) (le_trans hnow hnow_le2)
      · rw [List.mem_singleton.mp h]
    · show (dropExpired now2 lim.window_seconds
        (dropExpired now lim.window_seconds lim.timestamps)) ++ [now2] = _
      rw [hnewfilter, hts2]
    · exact hlennew
    · apply windowCount_extend
        (fun t ht => le_trans (hbnd t ht) (le_trans hnow hnow_le2)) hwc
      rw [hnewfilter, ← hts2]
      exact hlennew

theorem runLimiter_window_inv {N : Nat} {W : Rat} (hN : 0 < N) (hW : 0 < W) :
    ∀ (calls : List SlotCall) (hist : List Rat) (lim : HourlyRateLimiter) (tlast : Rat),
      LimInv N W hist lim tlast → ValidCalls lim tlast calls →
      ∀ t, windowCount W (hist ++ (runLimiter lim calls).2) t ≤ N := by
  intro calls
  induction calls with
  | nil =>
    intro hist lim tlast hinv _ t
    rw [runLimiter]
    simpa using hinv.hwindow t
  | cons c cs ih =>
    intro hist lim tlast hinv hvalid t
    obtain ⟨hnow, hj, hn2, hrest⟩ := hvalid
    have hstep := limInv_step hN hW hinv c.now c.jitter c.now2 hnow hj hn2
    have hruncons : (runLimiter lim (c :: cs)).2 =
        admittedAt lim c.now c.jitter c.now2 ::
          (runLimiter (wait_for_slot lim c.now c.jitter c.now2) cs).2 := by
      rw [runLimiter]
    rw [hruncons, ← List.singleton_append, ← List.append_assoc]
    exact ih (hist ++ [admittedAt lim c.now c.jitter c.now2])
      (wait_for_slot lim c.now c.jitter c.now2)
      (admittedAt lim c.now c.jitter c.now2) hstep.1 hrest t

/-- C3: starting from an empty limiter with capacity `N > 0` and window
`W > 0`, for every runtime-valid sequence of `wait_for_slot` calls
(monotone clock, jitter at least `0.5`, sleeps lasting at least the
computed duration), the full admission history — every recorded request
timestamp, including those the deque later forgets — has at most `N`
timestamps in every trailing window `(t - W, t]`, for every `t`. -/
theorem rate_limiter_trailing_window_bound (N : Nat) (W : Rat) (t0 : Rat)
    (calls : List SlotCall) (hN : 0 < N) (hW : 0 < W)
    (hvalid : ValidCalls ⟨N, W, []⟩ t0 calls) :
    ∀ t, windowCount W (runLimiter ⟨N, W, []⟩ calls).2 t ≤ N := by
  intro t
  have hinv : LimInv N W [] ⟨N, W, []⟩ t0 := by
    refine ⟨rfl, rfl, List.sorted_nil, ?_, rfl, ?_, ?_⟩
    · intro s hs; cases hs
    · simp
    · intro s; rw [windowCount, List.countP_nil]; omega
  have := runLimiter_window_inv hN hW calls [] ⟨N, W, []⟩ t0 hinv hvalid t
  simpa using this

/-- A concrete three-call demonstration run for the rate limiter with
capacity 2: the third call finds the window full and sleeps.  The inputs
are built from the model's own functions so that their runtime validity
holds definitionally. -/
def rlDemoLim0 : HourlyRateLimiter := ⟨2, 3600, []⟩

def rlDemoC1 : SlotCall :=
  ⟨0, 1/2, 0 + sleepFor rlDemoLim0.window_seconds 0 (1/2)
    (dropExpired 0 rlDemoLim0.window_seconds rlDemoLim0.timestamps)⟩

def rlDemoLim1 : HourlyRateLimiter :=
  wait_for_slot rlDemoLim0 rlDemoC1.now rlDemoC1.jitter rlDemoC1.now2

def rlDemoA1 : Rat := admittedAt rlDemoLim0 rlDemoC1.now rlDemoC1.jitter rlDemoC1.now2

def rlDemoC2 : SlotCall :=
  ⟨rlDemoA1, 1/2, rlDemoA1 + sleepFor rlDemoLim1.window_seconds rlDemoA1 (1/2)
    (dropExpired rlDemoA1 rlDemoLim1.window_seconds rlDemoLim1.timestamps)⟩

def rlDemoLim2 : HourlyRateLimiter :=
  wait_for_slot rlDemoLim1 rlDemoC2.now rlDemoC2.jitter rlDemoC2.now2

def rlDemoA2 : Rat := admittedAt rlDemoLim1 rlDemoC2.now rlDemoC2.jitter rlDemoC2.now2

def rlDemoC3 : SlotCall :=
  ⟨rlDemoA2, 1/2, rlDemoA2 + sleepFor rlDemoLim2.window_seconds rlDemoA2 (1/2)
    (dropExpired rlDemoA2 rlDemoLim2.window_seconds rlDemoLim2.timestamps)⟩

/-- Witness for C3 at the concrete demonstration run, read off at the
trailing window ending at time 1800. -/
theorem rate_limiter_trailing_window_bound_witness :
    windowCount 3600 (runLimiter ⟨2, 3600, []⟩ [rlDemoC1, rlDemoC2, rlDemoC3]).2 1800 ≤ 2 :=
  rate_limiter_trailing_window_bound 2 3600 0 [rlDemoC1, rlDemoC2, rlDemoC3]
    (by decide) (by decide)
    ⟨le_refl _, le_refl _, le_refl _,
      le_refl _, le_refl _, le_refl _,
      le_refl _, le_refl _, le_refl _, trivial⟩ 1800

end EsportsTraj
